import Mathlib

/-!
Verification of the Chains / Tasks async control-flow library.

The Chains engine (chains source module) is embedded as a pure state
machine: JavaScript promises are replaced by already-settled outcomes
(`Except ErrorV Value`), wall-clock behaviour of one attempt of a step
function is abstracted as an `AttemptSpec` (did the attempt exceed the
configured timeout, and did it return or throw), and the engine's side
effects (running a step function, sleeping between retries, writing a
history entry) are recorded in an explicit event trace.  The Tasks
runner (tasks source module) is embedded the same way with an explicit
continue / finish / throw action script per task.
-/

namespace ToolChain

/-- JavaScript error object: its prototype chain of constructor names
(most specific first), its message, and - for the distinguished
`TimeoutError` subtype - the `timeout` and `step` payload fields. -/
structure ErrorV where
  ctors : List String
  message : String
  tmo : Option (Nat × Option Nat)
deriving DecidableEq, Repr

/-- A plain `new Error(msg)`. -/
def mkError (msg : String) : ErrorV :=
  { ctors := ["Error"], message := msg, tmo := none }

/-- The `TimeoutError` constructor from the source: message template
`Operation timeout at step S: exceeded Tms`, fields `timeout`, `step`. -/
def timeoutError (timeout : Nat) (step : Option Nat) : ErrorV :=
  let stepInfo := match step with
    | some s => " at step " ++ toString s
    | none => ""
  { ctors := ["TimeoutError", "Error"],
    message := "Operation timeout" ++ stepInfo ++ ": exceeded " ++ toString timeout ++ "ms",
    tmo := some (timeout, step) }

/-- JavaScript values the chains manipulate: `undefined`, numbers,
strings, Error objects, and the `{data?, error?}` wrapped-result object
shapes produced (or not) by `wrapResult`. -/
inductive Value where
  | undefinedV : Value
  | vnum : Int → Value
  | vstr : String → Value
  | verr : ErrorV → Value
  | wrapData : Value → Value
  | wrapError : ErrorV → Value
  | wrapBoth : Value → ErrorV → Value
  | wrapNone : Value
deriving DecidableEq, Repr

/-- `String(v)` coercion used by `normalizeError` on non-Error values. -/
def jsToString : Value → String
  | .undefinedV => "undefined"
  | .vnum n => toString n
  | .vstr s => s
  | .verr e => (e.ctors.headD "Error") ++ ": " ++ e.message
  | .wrapData _ => "[object Object]"
  | .wrapError _ => "[object Object]"
  | .wrapBoth _ _ => "[object Object]"
  | .wrapNone => "[object Object]"

/-- `normalizeError`: an Error passes through unchanged, anything else
becomes `new Error(String(error))`. -/
def normalizeError (v : Value) : ErrorV :=
  match v with
  | .verr e => e
  | v => mkError (jsToString v)

/-- `needle` occurs at the start of `hay` (helper for substring search). -/
def prefAt : List Char → List Char → Bool
  | [], _ => true
  | _ :: _, [] => false
  | a :: as, b :: bs => a == b && prefAt as bs

/-- `String.prototype.includes`: `needle` occurs somewhere in `hay`. -/
def listIncl (needle : List Char) : List Char → Bool
  | [] => needle.isEmpty
  | c :: t => prefAt needle (c :: t) || listIncl needle t

/-- `hay.includes(needle)` on strings. -/
def strIncludes (hay needle : String) : Bool :=
  listIncl needle.data hay.data

/-- The four runtime shapes a `retryWhen` option can have: an Error
constructor, an Error instance, a string, or a regular expression
(abstracted as its message-test function). -/
inductive RetryWhen where
  | ctor : String → RetryWhen
  | errInstance : ErrorV → RetryWhen
  | str : String → RetryWhen
  | pattern : (String → Bool) → RetryWhen

/-- `shouldRetry` from the source.  `!retryWhen` is JavaScript falsiness:
among the possible shapes only the empty string is falsy.  A constructor
matches by `instanceof` (membership in the prototype chain); an instance
matches by `instanceof` its own constructor; the literal string
`"timeout"` is special-cased to `error instanceof TimeoutError`; any
other string matches by `error.message.includes(s)`; a regular
expression matches by testing the message. -/
def shouldRetry (error : ErrorV) (retryWhen : Option RetryWhen) : Bool :=
  match retryWhen with
  | none => true
  | some (.str s) =>
      if s = "" then true
      else if s = "timeout" then error.ctors.contains "TimeoutError"
      else strIncludes error.message s
  | some (.ctor c) => error.ctors.contains c
  | some (.errInstance e) =>
      match e.ctors with
      | c :: _ => error.ctors.contains c
      | [] => false
  | some (.pattern test) => test error.message

/-- The raw options object accepted by `chain(fn, options?)`. -/
structure ChainOptions where
  withoutThrow : Option Bool := none
  retry : Option Nat := none
  retryWhen : Option RetryWhen := none
  retryDelay : Option Nat := none
  timeout : Option Nat := none

/-- Result of `parseChainOptions`. -/
structure ParsedOptions where
  withoutThrow : Bool
  maxRetries : Nat
  retryWhen : Option RetryWhen
  retryDelay : Nat
  timeout : Option Nat

/-- `parseChainOptions` from the source: defaults `withoutThrow` to
`false`, `retry` and `retryDelay` to `0`, passes `retryWhen` and
`timeout` through. -/
def parseChainOptions (options : Option ChainOptions) : ParsedOptions :=
  { withoutThrow := (options.bind (·.withoutThrow)).getD false,
    maxRetries := (options.bind (·.retry)).getD 0,
    retryWhen := options.bind (·.retryWhen),
    retryDelay := (options.bind (·.retryDelay)).getD 0,
    timeout := options.bind (·.timeout) }

/-- `wrapResult` from the source: on an error, capture mode returns
`{error}` and throw mode rethrows; on success, capture mode returns
`{data}` and throw mode returns the raw value. -/
def wrapResult (result : Value) (error : Option ErrorV) (withoutThrow : Bool) :
    Except ErrorV Value :=
  match error with
  | some e => if withoutThrow then .ok (.wrapError e) else .error e
  | none => if withoutThrow then .ok (.wrapData result) else .ok result

/-- Abstraction of one attempt of a step function: whether the attempt
takes longer than the configured timeout (losing the race against the
timer, when one is set), and whether it returns a value or throws one
(`.error thrown` models `throw thrown` / a rejection). -/
structure AttemptSpec where
  slow : Bool
  outcome : Except Value Value

/-- The `Promise.race` of one attempt against the optional timeout timer
(source lines building the race): with a timeout configured, a slow
attempt rejects with `new TimeoutError(timeout, tmoStep)`; otherwise the
attempt's own outcome is taken. -/
def raceOutcome (timeout : Option Nat) (tmoStep : Nat) (spec : AttemptSpec) :
    Except Value Value :=
  match timeout with
  | some t => if spec.slow then .error (.verr (timeoutError t (some tmoStep))) else spec.outcome
  | none => spec.outcome

/-- Observable engine effects, in order: invoking a step function (step
position, 0-based attempt number), sleeping `retryDelay` milliseconds,
and assigning a history entry. -/
inductive Event where
  | exec : Nat → Nat → Event
  | delay : Nat → Event
  | write : Nat → Value → Event
deriving DecidableEq, Repr

/-- The `while (attempt <= maxRetries)` retry loop shared by both
`chain` implementations.  `fn` is the step function already applied to
its results view; `writeEv` is the history assignment re-executed at the
top of every iteration (by `ChainsImpl.chain`); `tmoStep` is the value
passed to the `TimeoutError` constructor; `pos` labels the executing
step in the trace.  `fuel` is `maxRetries + 1 - attempt`, the number of
loop iterations still allowed; if the loop ever ran out (it cannot), the
async function would fall through returning `undefined`. -/
def attemptLoop (fn : Nat → AttemptSpec) (p : ParsedOptions) (tmoStep : Nat)
    (writeEv : List Event) (pos : Nat) :
    Nat → Nat → List Event × Except ErrorV Value
  | _, 0 => ([], .ok .undefinedV)
  | attempt, fuel + 1 =>
      let evs := writeEv ++ [Event.exec pos attempt]
      match raceOutcome p.timeout tmoStep (fn attempt) with
      | .ok v => (evs, wrapResult v none p.withoutThrow)
      | .error thrown =>
          let lastError := normalizeError thrown
          if attempt < p.maxRetries && shouldRetry lastError p.retryWhen then
            let devs := if p.retryDelay > 0 then [Event.delay p.retryDelay] else []
            let rest := attemptLoop fn p tmoStep writeEv pos (attempt + 1) fuel
            (evs ++ devs ++ rest.1, rest.2)
          else
            (evs, wrapResult .undefinedV (some lastError) p.withoutThrow)

/-- The execution history object: `r1`, `r2`, ... keyed by position. -/
def Hist := Nat → Option Value

/-- History assignment `history[rk] = v`. -/
def histSet (h : Hist) (k : Nat) (v : Value) : Hist :=
  fun j => if j = k then some v else h j

/-- The results-view proxy over a history: a present key yields its
entry, an absent key yields `undefined`. -/
def viewOf (h : Hist) : Nat → Value :=
  fun j => (h j).getD .undefinedV

/-- A step definition: the step function (from the results view it is
handed and the attempt number to that attempt's behaviour) together
with the options object passed to `chain`. -/
structure StepDef where
  fn : (Nat → Value) → Nat → AttemptSpec
  opts : Option ChainOptions := none

/-- State of a `ChainsInitImpl` instance: its `executionHistory` and
`resultIndex` fields. -/
structure InitState where
  hist : Hist
  index : Nat

/-- The `ChainsInitImpl` constructor: a provided (non-`undefined`)
initial value is stored as `r1` and `resultIndex` becomes 1. -/
def chainsInit (initialData : Value) : InitState :=
  if initialData ≠ .undefinedV then
    { hist := histSet (fun _ => none) 1 initialData, index := 1 }
  else
    { hist := fun _ => none, index := 0 }

/-- State of a `ChainsImpl` instance.  `task` is the settled outcome of
its `asyncTask` promise (the promise starts running when `chain` is
called, so in this pure embedding its outcome is already part of the
builder state); `trace` and `views` record the effects performed and the
results-view proxies handed to step functions so far. -/
structure ChainState where
  hist : Hist
  index : Nat
  task : Except ErrorV Value
  trace : List Event
  views : List (Nat → Value)

/-- `ChainsInitImpl.chain`: builds and immediately starts the first
task.  No history entry is assigned; the results view is the proxy over
the (possibly seeded) history; the `TimeoutError` receives
`currentResultIndex + 1`. -/
def runInitStep (s : InitState) (st : StepDef) : ChainState :=
  let p := parseChainOptions st.opts
  let view := viewOf s.hist
  let r := attemptLoop (st.fn view) p (s.index + 1) [] (s.index + 1) 0 (p.maxRetries + 1)
  { hist := s.hist, index := s.index + 1, task := r.2,
    trace := r.1, views := [view] }

/-- `ChainsImpl.chain`: builds and immediately starts the next task.
It first awaits the previous task: a rejection re-propagates unchanged
and the step function never runs.  Otherwise every loop iteration
assigns the previous result to `history[r index]` (when `index > 0`)
before executing the step function against the live proxy; the
`TimeoutError` receives `currentIndex = this.index` (not the new step's
own position). -/
def runChainedStep (s : ChainState) (st : StepDef) : ChainState :=
  let p := parseChainOptions st.opts
  let currentIndex := s.index
  match s.task with
  | .error e =>
      { hist := s.hist, index := s.index + 1, task := .error e,
        trace := s.trace, views := s.views }
  | .ok prev =>
      let hist1 := if s.index > 0 then histSet s.hist s.index prev else s.hist
      let writeEv := if s.index > 0 then [Event.write s.index prev] else []
      let view := viewOf hist1
      let r := attemptLoop (st.fn view) p currentIndex writeEv (s.index + 1) 0 (p.maxRetries + 1)
      { hist := hist1, index := s.index + 1, task := r.2,
        trace := s.trace ++ r.1, views := s.views ++ [view] }

/-- A chains builder: either the initial instance or one produced by at
least one `chain` call. -/
inductive Builder where
  | init : InitState → Builder
  | impl : ChainState → Builder

/-- `chain` on either builder class. -/
def Builder.chain (b : Builder) (st : StepDef) : Builder :=
  match b with
  | .init s => .impl (runInitStep s st)
  | .impl s => .impl (runChainedStep s st)

/-- `invoke`: on the initial instance it resolves to `undefined`
(source: `return undefined`); otherwise it merely awaits the already
settled `asyncTask`. -/
def Builder.invoke : Builder → Except ErrorV Value
  | .init _ => .ok .undefinedV
  | .impl s => s.task

/-- The event trace accumulated while the builder was being built. -/
def Builder.traceOf : Builder → List Event
  | .init _ => []
  | .impl s => s.trace

/-- The results views handed to step functions so far. -/
def Builder.viewsOf : Builder → List (Nat → Value)
  | .init _ => []
  | .impl s => s.views

/-- The builder's history object. -/
def Builder.histOf : Builder → Hist
  | .init s => s.hist
  | .impl s => s.hist

/-- The builder's step index (`resultIndex` / `index` field). -/
def Builder.indexOf : Builder → Nat
  | .init s => s.index
  | .impl s => s.index

/-- Build a whole chain: `new Chains(seed).chain(s1).chain(s2)...`. -/
def buildChain (seed : Value) (steps : List StepDef) : Builder :=
  steps.foldl Builder.chain (Builder.init (chainsInit seed))

/-- `new Chains(seed).chain(s1)...chain(sN).invoke()`. -/
def invokeChain (seed : Value) (steps : List StepDef) : Except ErrorV Value :=
  (buildChain seed steps).invoke

/-- One observable action a task function performs, in program order:
`await next(value)` (the continuation), `await finish()` (the stop
signal), or throwing a value. -/
inductive TaskAct where
  | callNext : Value → TaskAct
  | callFinish : TaskAct
  | throwV : Value → TaskAct

/-- A task function: from the `param` it receives to the sequence of
context calls it performs (returning normally after the last one unless
it throws first). -/
def TaskFn := Value → List TaskAct

/-- Trace of the Tasks runner: which task index ran, with which param. -/
inductive TEvent where
  | run : Nat → Value → TEvent
deriving DecidableEq, Repr

/-- Outcome of `executeTask`: the `shouldStop` flag afterwards, the
tasks that ran (in order), and the thrown value if the call rejected. -/
structure TaskRes where
  stop : Bool
  evs : List TEvent
  err : Option Value

/-- Outcome of running a task function's action list: final
`shouldStop`, whether `next` was called (`isNextCalled`), the events of
downstream execution, and a thrown value if any. -/
structure ActsRes where
  stop : Bool
  nextCalled : Bool
  evs : List TEvent
  err : Option Value

mutual

/-- `Tasks.executeTask(index, param)` with `shouldStop` threaded
explicitly.  Past the end of the list or once stopped it returns at
once.  Otherwise it runs the task's action script; a rejection marks
`shouldStop` and re-throws; a normal return without a `next` call also
marks `shouldStop` (auto-termination).  `fuel` bounds the recursion
depth through `next` (each `next` targets `index + 1`, so any fuel
larger than the task count is enough). -/
def runTask (ts : List TaskFn) : Nat → Nat → Value → Bool → TaskRes
  | 0, _, _, stop => { stop := stop, evs := [], err := none }
  | fuel + 1, index, param, stop =>
      if index ≥ ts.length ∨ stop then
        { stop := stop, evs := [], err := none }
      else
        let acts := (ts.getD index (fun _ => [])) param
        let r := runActs ts fuel index acts stop false
        match r.err with
        | some e => { stop := true, evs := TEvent.run index param :: r.evs, err := some e }
        | none =>
            { stop := if r.nextCalled then r.stop else true,
              evs := TEvent.run index param :: r.evs, err := none }

/-- Runs the remaining actions of the task at `index`.  `await next(v)`
recursively executes the following tasks and, if that rejects, the
rejection propagates out of the awaiting task function, skipping its
remaining actions; `finish()` sets `shouldStop`; a `throw` rejects
immediately. -/
def runActs (ts : List TaskFn) : Nat → Nat → List TaskAct → Bool → Bool → ActsRes
  | _, _, [], stop, inc => { stop := stop, nextCalled := inc, evs := [], err := none }
  | fuel, index, .callNext v :: rest, stop, _ =>
      let tr := runTask ts fuel (index + 1) v stop
      match tr.err with
      | some e => { stop := tr.stop, nextCalled := true, evs := tr.evs, err := some e }
      | none =>
          let ar := runActs ts fuel index rest tr.stop true
          { stop := ar.stop, nextCalled := ar.nextCalled, evs := tr.evs ++ ar.evs, err := ar.err }
  | fuel, index, .callFinish :: rest, _, inc => runActs ts fuel index rest true inc
  | _, _, .throwV v :: _, stop, inc =>
      { stop := stop, nextCalled := inc, evs := [], err := some v }

end

/-- `TasksWithTasks.invoke()`: resets `shouldStop` to `false` and runs
`executeTask(0, undefined)`. -/
def invokeTasks (ts : List TaskFn) : TaskRes :=
  runTask ts (ts.length + 1) 0 .undefinedV false

/-- Concrete step: `() => 10`. -/
def okTen : StepDef := { fn := fun _ _ => { slow := false, outcome := .ok (.vnum 10) } }

/-- Concrete step: `r => r[1] * 2`. -/
def doubleR1 : StepDef :=
  { fn := fun view _ =>
      { slow := false,
        outcome := .ok (match view 1 with | .vnum n => .vnum (n * 2) | _ => .undefinedV) } }

/-- Concrete step: `r => r[2] + 5`. -/
def addFiveR2 : StepDef :=
  { fn := fun view _ =>
      { slow := false,
        outcome := .ok (match view 2 with | .vnum n => .vnum (n + 5) | _ => .undefinedV) } }

/-- Concrete step whose every attempt exceeds its 100 ms timeout. -/
def slowStep100 : StepDef :=
  { fn := fun _ _ => { slow := true, outcome := .ok .undefinedV },
    opts := some { timeout := some 100 } }

/-- Concrete step: `() => { throw new Error("x") }`, no options. -/
def throwX : StepDef :=
  { fn := fun _ _ => { slow := false, outcome := .error (.verr (mkError "x")) } }

section StringLemmas

lemma prefAt_iff (n : List Char) : ∀ h : List Char,
    prefAt n h = true ↔ ∃ q, h = n ++ q := by
  induction n with
  | nil => intro h; simp [prefAt]
  | cons a as ih =>
      intro h
      cases h with
      | nil => simp [prefAt]
      | cons b bs =>
          simp only [prefAt, Bool.and_eq_true, beq_iff_eq, ih, List.cons_append,
            List.cons.injEq]
          constructor
          · rintro ⟨rfl, q, rfl⟩; exact ⟨q, rfl, rfl⟩
          · rintro ⟨q, rfl, rfl⟩; exact ⟨rfl, q, rfl⟩

lemma listIncl_iff (n : List Char) : ∀ h : List Char,
    listIncl n h = true ↔ ∃ p q, h = p ++ n ++ q := by
  intro h
  induction h with
  | nil =>
      simp only [listIncl, List.isEmpty_iff]
      constructor
      · rintro rfl; exact ⟨[], [], rfl⟩
      · rintro ⟨p, q, hpq⟩
        exact (List.append_eq_nil.mp (List.append_eq_nil.mp hpq.symm).1).2
  | cons c t ih =>
      simp only [listIncl, Bool.or_eq_true, prefAt_iff, ih]
      constructor
      · rintro (⟨q, hq⟩ | ⟨p, q, rfl⟩)
        · exact ⟨[], q, by simpa using hq⟩
        · exact ⟨c :: p, q, by simp⟩
      · rintro ⟨p, q, hpq⟩
        cases p with
        | nil => exact Or.inl ⟨q, by simpa using hpq⟩
        | cons x xs =>
            simp only [List.cons_append, List.cons.injEq] at hpq
            exact Or.inr ⟨xs, q, hpq.2⟩

lemma strIncludes_iff (hay nd : String) :
    strIncludes hay nd = true ↔ ∃ p q : String, hay = p ++ nd ++ q := by
  unfold strIncludes
  rw [listIncl_iff]
  constructor
  · rintro ⟨p, q, h⟩
    refine ⟨⟨p⟩, ⟨q⟩, String.ext ?_⟩
    simpa using h
  · rintro ⟨p, q, rfl⟩
    exact ⟨p.data, q.data, by simp⟩

lemma strIncludes_empty (hay : String) : strIncludes hay "" = true := by
  unfold strIncludes
  cases hay.data with
  | nil => rfl
  | cons c t => simp [listIncl, prefAt]

end StringLemmas

/-- C5: for a failing step with `retryWhen` set to a string `S`: when `S`
is not the literal `"timeout"`, the retry predicate holds exactly when
the normalized error's message contains `S` as a substring; when `S` is
`"timeout"`, it holds exactly when the error is an instance of the
distinguished `TimeoutError` (in particular for every error built by the
`TimeoutError` constructor), regardless of the message text. -/
theorem c5_retry_when_string (e : ErrorV) (S : String) :
    (S ≠ "timeout" →
      (shouldRetry e (some (.str S)) = true ↔ ∃ p q : String, e.message = p ++ S ++ q)) ∧
    (shouldRetry e (some (.str "timeout")) = true ↔ e.ctors.contains "TimeoutError" = true) ∧
    (∀ t st, shouldRetry (timeoutError t st) (some (.str "timeout")) = true) := by
  refine ⟨?_, ?_, ?_⟩
  · intro hS
    by_cases hE : S = ""
    · subst hE
      rw [← strIncludes_iff]
      simp [shouldRetry, strIncludes_empty e.message]
    · simp only [shouldRetry, if_neg hE, if_neg hS]
      exact strIncludes_iff e.message S
  · simp [shouldRetry]
  · intro t st
    simp [shouldRetry, timeoutError]

/-- Witness for C5: message `"xxabcyy"` contains `"abc"`, so a failure
with that message retries under `retryWhen: "abc"`; a `TimeoutError`
retries under `retryWhen: "timeout"`. -/
theorem c5_retry_when_string_witness :
    shouldRetry (mkError "xxabcyy") (some (.str "abc")) = true ∧
    shouldRetry (timeoutError 100 (some 2)) (some (.str "timeout")) = true := by
  constructor
  · exact ((c5_retry_when_string (mkError "xxabcyy") "abc").1 (by decide)).mpr ⟨"xx", "yy", rfl⟩
  · exact (c5_retry_when_string (timeoutError 100 (some 2)) "abc").2.2 100 (some 2)

/-- C10: invoking a Chains builder with no chained step resolves to
`undefined` (never rejects), whether or not a seed was supplied. -/
theorem c10_invoke_no_steps (d : Value) :
    Builder.invoke (.init (chainsInit d)) = .ok .undefinedV ∧
    invokeChain d [] = .ok .undefinedV :=
  ⟨rfl, rfl⟩

/-- C6 (code bug): the distinguished timeout error does carry the
configured duration, and for the first chained step (seeded or not) the
step's own 1-based history position; but for every later step the code
passes `this.index`, the position of the previous step, so the step at
position 2 times out with an error claiming step 1. -/
theorem c6_timeout_step_payload :
    invokeChain .undefinedV [slowStep100] = .error (timeoutError 100 (some 1)) ∧
    invokeChain (.vnum 7) [slowStep100] = .error (timeoutError 100 (some 2)) ∧
    invokeChain .undefinedV [okTen, slowStep100] = .error (timeoutError 100 (some 1)) := by
  refine ⟨rfl, rfl, rfl⟩

section LoopLemmas

variable {fn : Nat → AttemptSpec} {p : ParsedOptions} {tmoStep : Nat}
variable {we : List Event} {pos : Nat}

lemma raceOutcome_ok_any {sp : AttemptSpec} {tmo : Option Nat} {ts : Nat} (ts2 : Nat) {v : Value}
    (h : raceOutcome tmo ts sp = .ok v) : raceOutcome tmo ts2 sp = .ok v := by
  cases tmo with
  | none => exact h
  | some t =>
      by_cases hs : sp.slow = true
      · simp [raceOutcome, hs] at h
      · simp only [Bool.not_eq_true] at hs
        simpa [raceOutcome, hs] using h

lemma attemptLoop_succ_ok {attempt fuel : Nat} {v : Value}
    (h : raceOutcome p.timeout tmoStep (fn attempt) = .ok v) :
    attemptLoop fn p tmoStep we pos attempt (fuel + 1) =
      (we ++ [Event.exec pos attempt], wrapResult v none p.withoutThrow) := by
  simp only [attemptLoop]
  rw [h]

lemma attemptLoop_succ_stop {attempt fuel : Nat} {t : Value}
    (h : raceOutcome p.timeout tmoStep (fn attempt) = .error t)
    (hc : (decide (attempt < p.maxRetries) && shouldRetry (normalizeError t) p.retryWhen) = false) :
    attemptLoop fn p tmoStep we pos attempt (fuel + 1) =
      (we ++ [Event.exec pos attempt],
       wrapResult .undefinedV (some (normalizeError t)) p.withoutThrow) := by
  simp only [attemptLoop]
  rw [h]
  simp [hc]

lemma attemptLoop_succ_retry {attempt fuel : Nat} {t : Value}
    (h : raceOutcome p.timeout tmoStep (fn attempt) = .error t)
    (hc : (decide (attempt < p.maxRetries) && shouldRetry (normalizeError t) p.retryWhen) = true) :
    attemptLoop fn p tmoStep we pos attempt (fuel + 1) =
      ((we ++ [Event.exec pos attempt]) ++
         (if p.retryDelay > 0 then [Event.delay p.retryDelay] else []) ++
         (attemptLoop fn p tmoStep we pos (attempt + 1) fuel).1,
       (attemptLoop fn p tmoStep we pos (attempt + 1) fuel).2) := by
  simp only [attemptLoop]
  rw [h]
  simp [hc, List.append_assoc]

end LoopLemmas

/-- The trace produced by a step whose every attempt fails with a
retryable error: the history re-assignment and one execution per
attempt, with a single `retryDelay` pause strictly between consecutive
attempts (and none at all when the delay is zero). -/
def retryFailTrace (we : List Event) (pos d : Nat) : Nat → Nat → List Event
  | _, 0 => []
  | a, f + 1 =>
      we ++ [Event.exec pos a] ++
        (if f = 0 then []
         else (if d > 0 then [Event.delay d] else []) ++ retryFailTrace we pos d (a + 1) f)

/-- Number of step-function executions recorded in a trace. -/
def countExec (l : List Event) : Nat :=
  (l.filter fun ev => match ev with | .exec _ _ => true | _ => false).length

/-- Number of retry-delay pauses recorded in a trace. -/
def countDelay (l : List Event) : Nat :=
  (l.filter fun ev => match ev with | .delay _ => true | _ => false).length

lemma attemptLoop_all_fail {fn : Nat → AttemptSpec} {p : ParsedOptions} {tmoStep : Nat}
    {we : List Event} {pos : Nat}
    (hfail : ∀ b, ∃ t, raceOutcome p.timeout tmoStep (fn b) = .error t ∧
        shouldRetry (normalizeError t) p.retryWhen = true) :
    ∀ f a, a + f = p.maxRetries →
      ∃ t, raceOutcome p.timeout tmoStep (fn p.maxRetries) = .error t ∧
        attemptLoop fn p tmoStep we pos a (f + 1) =
          (retryFailTrace we pos p.retryDelay a (f + 1),
           wrapResult .undefinedV (some (normalizeError t)) p.withoutThrow) := by
  intro f
  induction f with
  | zero =>
      intro a ha
      simp only [Nat.add_zero] at ha
      subst ha
      obtain ⟨t, ht, hs⟩ := hfail p.maxRetries
      refine ⟨t, ht, ?_⟩
      rw [attemptLoop_succ_stop ht (by simp [Nat.lt_irrefl])]
      simp [retryFailTrace]
  | succ f ih =>
      intro a ha
      obtain ⟨t, ht, hs⟩ := hfail a
      have hlt : a < p.maxRetries := by omega
      obtain ⟨t2, ht2, hrec⟩ := ih (a + 1) (by omega)
      refine ⟨t2, ht2, ?_⟩
      rw [attemptLoop_succ_retry ht (by simp [hlt, hs]), hrec]
      simp [retryFailTrace, List.append_assoc]

lemma retryFailTrace_nil_cons (pos d a f : Nat) :
    retryFailTrace [] pos d a (f + 1) =
      Event.exec pos a ::
        (if f = 0 then []
         else (if d > 0 then [Event.delay d] else []) ++ retryFailTrace [] pos d (a + 1) f) := by
  simp [retryFailTrace]

lemma countExec_retryFailTrace (pos d : Nat) :
    ∀ f a, countExec (retryFailTrace [] pos d a f) = f := by
  intro f
  induction f with
  | zero => intro a; simp [retryFailTrace, countExec]
  | succ f ih =>
      intro a
      rw [retryFailTrace_nil_cons]
      by_cases hf : f = 0
      · simp [hf, countExec]
      · simp only [hf, if_false, countExec, List.filter_cons, List.filter_append,
          List.length_append] at ih ⊢
        by_cases hd : d > 0
        · simp [hd, ih]
        · simp [hd, ih]

lemma countDelay_retryFailTrace (pos d : Nat) :
    ∀ f a, countDelay (retryFailTrace [] pos d a (f + 1)) =
      if d > 0 then f else 0 := by
  intro f
  induction f with
  | zero => intro a; simp [retryFailTrace, countDelay]
  | succ f ih =>
      intro a
      rw [retryFailTrace_nil_cons]
      simp only [Nat.succ_ne_zero, if_false, countDelay, List.filter_cons,
        List.filter_append, List.length_append] at ih ⊢
      by_cases hd : d > 0
      · simp only [hd, if_true] at ih ⊢
        simp [ih]
      · simp only [hd, if_false] at ih ⊢
        simp [ih]

lemma getLast_retryFailTrace (pos d : Nat) :
    ∀ f a, (retryFailTrace [] pos d a (f + 1)).getLast? = some (Event.exec pos (a + f)) := by
  intro f
  induction f with
  | zero => intro a; simp [retryFailTrace]
  | succ f ih =>
      intro a
      rw [retryFailTrace_nil_cons]
      simp only [Nat.succ_ne_zero, if_false]
      have h3 := ih (a + 1)
      have h4 : a + 1 + f = a + (f + 1) := by omega
      rw [h4] at h3
      rw [show (Event.exec pos a ::
            ((if d > 0 then [Event.delay d] else []) ++ retryFailTrace [] pos d (a + 1) (f + 1))) =
          ((Event.exec pos a :: (if d > 0 then [Event.delay d] else [])) ++
            retryFailTrace [] pos d (a + 1) (f + 1)) from by simp]
      rw [List.getLast?_append, h3]
      rfl

/-- C2: a step configured with `retry: r` whose step function fails on
every attempt (each failure passing `shouldRetry`) is executed exactly
`r + 1` times before the throw/capture policy (`wrapResult`) is applied
to the last failure's normalized error; the trace equals the canonical
attempt/delay interleaving, which starts and ends with an execution and
contains exactly `r` delay pauses when `retryDelay` is positive (none
when it is zero) - so delays occur only strictly between attempts. -/
theorem c2_retry_attempt_count (fn : Nat → AttemptSpec) (o : Option ChainOptions)
    (tmoStep pos : Nat)
    (hfail : ∀ b, ∃ t, raceOutcome (parseChainOptions o).timeout tmoStep (fn b) = .error t ∧
        shouldRetry (normalizeError t) (parseChainOptions o).retryWhen = true) :
    ∃ t, raceOutcome (parseChainOptions o).timeout tmoStep
        (fn (parseChainOptions o).maxRetries) = .error t ∧
      attemptLoop fn (parseChainOptions o) tmoStep [] pos 0
          ((parseChainOptions o).maxRetries + 1) =
        (retryFailTrace [] pos (parseChainOptions o).retryDelay 0
            ((parseChainOptions o).maxRetries + 1),
         wrapResult .undefinedV (some (normalizeError t)) (parseChainOptions o).withoutThrow) ∧
      countExec (retryFailTrace [] pos (parseChainOptions o).retryDelay 0
          ((parseChainOptions o).maxRetries + 1)) = (parseChainOptions o).maxRetries + 1 ∧
      (retryFailTrace [] pos (parseChainOptions o).retryDelay 0
          ((parseChainOptions o).maxRetries + 1)).head? = some (Event.exec pos 0) ∧
      (retryFailTrace [] pos (parseChainOptions o).retryDelay 0
          ((parseChainOptions o).maxRetries + 1)).getLast? =
        some (Event.exec pos (parseChainOptions o).maxRetries) ∧
      countDelay (retryFailTrace [] pos (parseChainOptions o).retryDelay 0
          ((parseChainOptions o).maxRetries + 1)) =
        if (parseChainOptions o).retryDelay > 0 then (parseChainOptions o).maxRetries else 0 := by
  obtain ⟨t, ht, hloop⟩ := attemptLoop_all_fail hfail (parseChainOptions o).maxRetries 0 (by omega)
  refine ⟨t, ht, hloop, countExec_retryFailTrace _ _ _ _, ?_, ?_, countDelay_retryFailTrace _ _ _ _⟩
  · rw [retryFailTrace_nil_cons]
    rfl
  · simpa using getLast_retryFailTrace pos (parseChainOptions o).retryDelay
      (parseChainOptions o).maxRetries 0

/-- Witness for C2 at `retry: 2`, `retryDelay: 5` and a step function
throwing `"boom"` on every attempt: exactly 3 executions with the two
pauses strictly between them. -/
theorem c2_retry_attempt_count_witness :
    attemptLoop (fun _ => { slow := false, outcome := .error (.vstr "boom") })
        (parseChainOptions (some { retry := some 2, retryDelay := some 5 })) 1 [] 1 0
        ((parseChainOptions (some { retry := some 2, retryDelay := some 5 })).maxRetries + 1) =
      (retryFailTrace [] 1
          (parseChainOptions (some { retry := some 2, retryDelay := some 5 })).retryDelay 0
          ((parseChainOptions (some { retry := some 2, retryDelay := some 5 })).maxRetries + 1),
       wrapResult .undefinedV (some (normalizeError (.vstr "boom")))
         (parseChainOptions (some { retry := some 2, retryDelay := some 5 })).withoutThrow) ∧
    countExec (retryFailTrace [] 1
        (parseChainOptions (some { retry := some 2, retryDelay := some 5 })).retryDelay 0
        ((parseChainOptions (some { retry := some 2, retryDelay := some 5 })).maxRetries + 1)) =
      (parseChainOptions (some { retry := some 2, retryDelay := some 5 })).maxRetries + 1 ∧
    (retryFailTrace [] 1
        (parseChainOptions (some { retry := some 2, retryDelay := some 5 })).retryDelay 0
        ((parseChainOptions (some { retry := some 2, retryDelay := some 5 })).maxRetries + 1)).head? =
      some (Event.exec 1 0) ∧
    (retryFailTrace [] 1
        (parseChainOptions (some { retry := some 2, retryDelay := some 5 })).retryDelay 0
        ((parseChainOptions (some { retry := some 2, retryDelay := some 5 })).maxRetries + 1)).getLast? =
      some (Event.exec 1 (parseChainOptions (some { retry := some 2, retryDelay := some 5 })).maxRetries) ∧
    countDelay (retryFailTrace [] 1
        (parseChainOptions (some { retry := some 2, retryDelay := some 5 })).retryDelay 0
        ((parseChainOptions (some { retry := some 2, retryDelay := some 5 })).maxRetries + 1)) =
      if (parseChainOptions (some { retry := some 2, retryDelay := some 5 })).retryDelay > 0 then
        (parseChainOptions (some { retry := some 2, retryDelay := some 5 })).maxRetries
      else 0 := by
  obtain ⟨t, ht, h1, h2, h3, h4, h5⟩ :=
    c2_retry_attempt_count (fun _ => { slow := false, outcome := .error (.vstr "boom") })
      (some { retry := some 2, retryDelay := some 5 }) 1 1
      (fun _ => ⟨.vstr "boom", rfl, rfl⟩)
  have htt : t = .vstr "boom" :=
    (Except.error.inj
      (show Except.error (Value.vstr "boom") = Except.error t from ht)).symm
  subst htt
  exact ⟨h1, h2, h3, h4, h5⟩

lemma attemptLoop_withoutThrow_ok {fn : Nat → AttemptSpec} {p : ParsedOptions} {tmoStep : Nat}
    {we : List Event} {pos : Nat} (hw : p.withoutThrow = true) :
    ∀ f a, a + f = p.maxRetries →
      ∃ w, (attemptLoop fn p tmoStep we pos a (f + 1)).2 = .ok w ∧
        ((∃ v, w = Value.wrapData v) ∨ (∃ e, w = Value.wrapError e)) := by
  intro f
  induction f with
  | zero =>
      intro a ha
      simp only [Nat.add_zero] at ha
      subst ha
      cases hr : raceOutcome p.timeout tmoStep (fn p.maxRetries) with
      | ok v =>
          refine ⟨.wrapData v, ?_, Or.inl ⟨v, rfl⟩⟩
          rw [attemptLoop_succ_ok hr]
          simp [wrapResult, hw]
      | error t =>
          refine ⟨.wrapError (normalizeError t), ?_, Or.inr ⟨normalizeError t, rfl⟩⟩
          rw [attemptLoop_succ_stop hr (by simp [Nat.lt_irrefl])]
          simp [wrapResult, hw]
  | succ f ih =>
      intro a ha
      cases hr : raceOutcome p.timeout tmoStep (fn a) with
      | ok v =>
          refine ⟨.wrapData v, ?_, Or.inl ⟨v, rfl⟩⟩
          rw [attemptLoop_succ_ok hr]
          simp [wrapResult, hw]
      | error t =>
          cases hc : (decide (a < p.maxRetries) && shouldRetry (normalizeError t) p.retryWhen) with
          | true =>
              obtain ⟨w, hres, hshape⟩ := ih (a + 1) (by omega)
              refine ⟨w, ?_, hshape⟩
              rw [attemptLoop_succ_retry hr hc]
              exact hres
          | false =>
              refine ⟨.wrapError (normalizeError t), ?_, Or.inr ⟨normalizeError t, rfl⟩⟩
              rw [attemptLoop_succ_stop hr hc]
              simp [wrapResult, hw]

lemma attemptLoop_all_fail_throw {fn : Nat → AttemptSpec} {p : ParsedOptions} {tmoStep : Nat}
    {we : List Event} {pos : Nat} (hw : p.withoutThrow = false)
    (hfail : ∀ b, ∃ t, raceOutcome p.timeout tmoStep (fn b) = .error t) :
    ∀ f a, a + f = p.maxRetries →
      ∃ k t, a ≤ k ∧ k ≤ p.maxRetries ∧
        raceOutcome p.timeout tmoStep (fn k) = .error t ∧
        (attemptLoop fn p tmoStep we pos a (f + 1)).2 = .error (normalizeError t) := by
  intro f
  induction f with
  | zero =>
      intro a ha
      simp only [Nat.add_zero] at ha
      subst ha
      obtain ⟨t, ht⟩ := hfail p.maxRetries
      refine ⟨p.maxRetries, t, le_refl _, le_refl _, ht, ?_⟩
      rw [attemptLoop_succ_stop ht (by simp [Nat.lt_irrefl])]
      simp [wrapResult, hw]
  | succ f ih =>
      intro a ha
      obtain ⟨t, ht⟩ := hfail a
      cases hc : (decide (a < p.maxRetries) && shouldRetry (normalizeError t) p.retryWhen) with
      | true =>
          obtain ⟨k, t2, hk1, hk2, ht2, hres⟩ := ih (a + 1) (by omega)
          refine ⟨k, t2, by omega, hk2, ht2, ?_⟩
          rw [attemptLoop_succ_retry ht hc]
          exact hres
      | false =>
          refine ⟨a, t, le_refl _, by omega, ht, ?_⟩
          rw [attemptLoop_succ_stop ht hc]
          simp [wrapResult, hw]

lemma attemptLoop_first_exec (fn : Nat → AttemptSpec) (p : ParsedOptions) (tmoStep : Nat)
    (we : List Event) (pos a fuel : Nat) :
    ∃ rest, (attemptLoop fn p tmoStep we pos a (fuel + 1)).1 = we ++ Event.exec pos a :: rest := by
  cases hr : raceOutcome p.timeout tmoStep (fn a) with
  | ok v => exact ⟨[], by rw [attemptLoop_succ_ok hr]⟩
  | error t =>
      cases hc : (decide (a < p.maxRetries) && shouldRetry (normalizeError t) p.retryWhen) with
      | false => exact ⟨[], by rw [attemptLoop_succ_stop hr hc]⟩
      | true =>
          refine ⟨(if p.retryDelay > 0 then [Event.delay p.retryDelay] else []) ++
            (attemptLoop fn p tmoStep we pos (a + 1) fuel).1, ?_⟩
          rw [attemptLoop_succ_retry hr hc]
          simp [List.append_assoc]

lemma runChainedStep_ok (s : ChainState) (st : StepDef) (prev : Value)
    (htask : s.task = .ok prev) (hidx : 0 < s.index) :
    runChainedStep s st =
      { hist := histSet s.hist s.index prev, index := s.index + 1,
        task := (attemptLoop (st.fn (viewOf (histSet s.hist s.index prev)))
            (parseChainOptions st.opts) s.index [Event.write s.index prev] (s.index + 1) 0
            ((parseChainOptions st.opts).maxRetries + 1)).2,
        trace := s.trace ++ (attemptLoop (st.fn (viewOf (histSet s.hist s.index prev)))
            (parseChainOptions st.opts) s.index [Event.write s.index prev] (s.index + 1) 0
            ((parseChainOptions st.opts).maxRetries + 1)).1,
        views := s.views ++ [viewOf (histSet s.hist s.index prev)] } := by
  simp [runChainedStep, htask, hidx]

lemma foldl_runChainedStep_error {e : ErrorV} :
    ∀ (steps : List StepDef) (s : ChainState), s.task = .error e →
      (List.foldl runChainedStep s steps).task = .error e ∧
      (List.foldl runChainedStep s steps).trace = s.trace ∧
      (List.foldl runChainedStep s steps).views = s.views ∧
      (List.foldl runChainedStep s steps).hist = s.hist := by
  intro steps
  induction steps with
  | nil => intro s h; exact ⟨h, rfl, rfl, rfl⟩
  | cons st rest ih =>
      intro s h
      have hstep : runChainedStep s st =
          { hist := s.hist, index := s.index + 1, task := .error e,
            trace := s.trace, views := s.views } := by
        simp [runChainedStep, h]
      rw [List.foldl_cons, hstep]
      exact ih _ rfl

/-- C3: a throw-mode step (no `withoutThrow`) all of whose attempts
fail makes `invoke()` reject with exactly the normalized (or timeout)
error thrown at the attempt on which the loop stopped - the very Error
object, with no wrapping layer - and none of the steps chained after it
executes (their step functions are never run, no events and no views are
added). -/
theorem c3_throw_mode_propagates_original_error
    (s : ChainState) (st : StepDef) (post : List StepDef) (prev : Value)
    (htask : s.task = .ok prev) (hidx : 0 < s.index)
    (hw : (parseChainOptions st.opts).withoutThrow = false)
    (hfail : ∀ view b, ∃ t, raceOutcome (parseChainOptions st.opts).timeout s.index
        (st.fn view b) = .error t) :
    ∃ k t, k ≤ (parseChainOptions st.opts).maxRetries ∧
      raceOutcome (parseChainOptions st.opts).timeout s.index
        (st.fn (viewOf (histSet s.hist s.index prev)) k) = .error t ∧
      (runChainedStep s st).task = .error (normalizeError t) ∧
      (List.foldl runChainedStep (runChainedStep s st) post).task = .error (normalizeError t) ∧
      (List.foldl runChainedStep (runChainedStep s st) post).trace = (runChainedStep s st).trace ∧
      (List.foldl runChainedStep (runChainedStep s st) post).views = (runChainedStep s st).views := by
  have hstep := runChainedStep_ok s st prev htask hidx
  obtain ⟨k, t, hk1, hk2, ht, hres⟩ :=
    attemptLoop_all_fail_throw hw (hfail (viewOf (histSet s.hist s.index prev)))
      (parseChainOptions st.opts).maxRetries 0 (by omega)
  have htask1 : (runChainedStep s st).task = .error (normalizeError t) := by
    rw [hstep]
    exact hres
  obtain ⟨hft, hftr, hfv, hfh⟩ := foldl_runChainedStep_error post (runChainedStep s st) htask1
  exact ⟨k, t, hk2, ht, htask1, hft, hftr, hfv⟩

/-- Concrete capture-mode step whose only attempt throws `"boom"`. -/
def capBoom : StepDef :=
  { fn := fun _ _ => { slow := false, outcome := .error (.verr (mkError "boom")) },
    opts := some { withoutThrow := some true } }

/-- Witness for C3: after `chain(() => 10)`, the step
`() => { throw new Error("x") }` makes the whole chain reject with that
very error and the following step never runs. -/
theorem c3_throw_mode_propagates_original_error_witness :
    (runChainedStep (runInitStep (chainsInit .undefinedV) okTen) throwX).task =
      .error (mkError "x") ∧
    (List.foldl runChainedStep
        (runChainedStep (runInitStep (chainsInit .undefinedV) okTen) throwX)
        [addFiveR2]).task = .error (mkError "x") ∧
    (List.foldl runChainedStep
        (runChainedStep (runInitStep (chainsInit .undefinedV) okTen) throwX)
        [addFiveR2]).trace =
      (runChainedStep (runInitStep (chainsInit .undefinedV) okTen) throwX).trace ∧
    (List.foldl runChainedStep
        (runChainedStep (runInitStep (chainsInit .undefinedV) okTen) throwX)
        [addFiveR2]).views =
      (runChainedStep (runInitStep (chainsInit .undefinedV) okTen) throwX).views := by
  obtain ⟨k, t, hk, ht, h1, h2, h3, h4⟩ :=
    c3_throw_mode_propagates_original_error
      (runInitStep (chainsInit .undefinedV) okTen) throwX [addFiveR2] (.vnum 10)
      rfl (by decide) rfl (fun view b => ⟨.verr (mkError "x"), rfl⟩)
  have htt : t = .verr (mkError "x") :=
    (Except.error.inj
      (show Except.error (Value.verr (mkError "x")) = Except.error t from ht)).symm
  subst htt
  exact ⟨h1, h2, h3, h4⟩

/-- C4: a step with `withoutThrow: true` never lets an error escape: its
task settles successfully with a wrapped value carrying exactly one of
`{data}` / `{error}` (never both, never neither); the next chained step
still executes (its results view is created and its function runs), and
the history entry at the capture step's position - as exposed to that
next step's view - holds exactly the wrapped value. -/
theorem c4_without_throw_never_escapes
    (s : ChainState) (st st2 : StepDef) (prev : Value)
    (htask : s.task = .ok prev) (hidx : 0 < s.index)
    (hw : (parseChainOptions st.opts).withoutThrow = true) :
    ∃ w, (runChainedStep s st).task = .ok w ∧
      ((∃ v, w = Value.wrapData v) ∨ (∃ e, w = Value.wrapError e)) ∧
      (∃ view2, (runChainedStep (runChainedStep s st) st2).views =
          (runChainedStep s st).views ++ [view2] ∧ view2 (s.index + 1) = w) ∧
      (∃ evs, (runChainedStep (runChainedStep s st) st2).trace =
          (runChainedStep s st).trace ++ evs ∧ Event.exec (s.index + 2) 0 ∈ evs) := by
  have hstep := runChainedStep_ok s st prev htask hidx
  obtain ⟨w, hres, hshape⟩ :=
    @attemptLoop_withoutThrow_ok (st.fn (viewOf (histSet s.hist s.index prev)))
      (parseChainOptions st.opts) s.index [Event.write s.index prev] (s.index + 1)
      hw (parseChainOptions st.opts).maxRetries 0 (by omega)
  have htask1 : (runChainedStep s st).task = .ok w := by
    rw [hstep]
    exact hres
  have hidx1 : (runChainedStep s st).index = s.index + 1 := by
    rw [hstep]
  have hstep2 := runChainedStep_ok (runChainedStep s st) st2 w htask1 (by rw [hidx1]; omega)
  rw [hidx1] at hstep2
  refine ⟨w, htask1, hshape, ?_, ?_⟩
  · refine ⟨viewOf (histSet (runChainedStep s st).hist (s.index + 1) w), ?_, ?_⟩
    · rw [hstep2]
    · simp [viewOf, histSet]
  · obtain ⟨rest, hrest⟩ := attemptLoop_first_exec
      (st2.fn (viewOf (histSet (runChainedStep s st).hist (s.index + 1) w)))
      (parseChainOptions st2.opts) (s.index + 1) [Event.write (s.index + 1) w] (s.index + 1 + 1) 0
      (parseChainOptions st2.opts).maxRetries
    refine ⟨_, by rw [hstep2], ?_⟩
    rw [hrest]
    simp

/-- Witness for C4: `chain(() => 10)` then a capture-mode step throwing
`"boom"`, followed by one more step: the capture step settles as
`{error}` and the following step still executes. -/
theorem c4_without_throw_never_escapes_witness :
    (runChainedStep (runInitStep (chainsInit .undefinedV) okTen) capBoom).task =
      .ok (.wrapError (mkError "boom")) ∧
    Event.exec 3 0 ∈ (runChainedStep
      (runChainedStep (runInitStep (chainsInit .undefinedV) okTen) capBoom) addFiveR2).trace := by
  obtain ⟨w, hok, hshape, ⟨view2, hv, hval⟩, ⟨evs, htr, hmem⟩⟩ :=
    c4_without_throw_never_escapes (runInitStep (chainsInit .undefinedV) okTen) capBoom addFiveR2
      (.vnum 10) rfl (by decide) rfl
  have hw : w = .wrapError (mkError "boom") :=
    (Except.ok.inj
      (show Except.ok (Value.wrapError (mkError "boom")) = Except.ok w from hok)).symm
  subst hw
  refine ⟨hok, ?_⟩
  rw [htr]
  exact List.mem_append_right _ hmem

/-- C7 counterexample: a chain that is built but never invoked has
already executed its step function - `chain` invokes the new task at
once, and the first step function even runs synchronously inside the
`chain` call - so `chain` is not pure composition and `invoke()` is not
what triggers execution. -/
theorem c7_counterexample_chain_executes_before_invoke :
    Builder.traceOf (buildChain .undefinedV [okTen]) = [Event.exec 1 0] ∧
    Builder.traceOf (buildChain .undefinedV [okTen]) ≠ [] := by
  refine ⟨rfl, by decide⟩

/-- C7 (amended): `chain` returns a new builder and only ever appends to
the recorded effect trace (the sequence-so-far is preserved, nothing is
re-run), but it eagerly starts the appended step: chaining onto the
initial builder runs the new step function immediately, chaining onto a
successfully settled builder likewise runs it before any `invoke`;
`invoke()` itself executes nothing - it is a pure projection of the
already-settled task. -/
theorem c7_chain_eager_invoke_projection :
    (∀ (b : Builder) (st : StepDef), ∃ evs,
        Builder.traceOf (b.chain st) = Builder.traceOf b ++ evs) ∧
    (∀ (s : InitState) (st : StepDef), ∃ rest,
        Builder.traceOf (Builder.chain (.init s) st) = Event.exec (s.index + 1) 0 :: rest) ∧
    (∀ (s : ChainState) (st : StepDef) (prev : Value), s.task = .ok prev →
        ∃ evs, Builder.traceOf (Builder.chain (.impl s) st) = s.trace ++ evs ∧
          Event.exec (s.index + 1) 0 ∈ evs) ∧
    (∀ (s : ChainState), Builder.invoke (.impl s) = s.task) ∧
    (∀ (seed : Value) (steps : List StepDef),
        invokeChain seed steps = (buildChain seed steps).invoke) := by
  refine ⟨?_, ?_, ?_, fun _ => rfl, fun _ _ => rfl⟩
  · intro b st
    cases b with
    | init s =>
        refine ⟨(attemptLoop (st.fn (viewOf s.hist)) (parseChainOptions st.opts) (s.index + 1) []
          (s.index + 1) 0 ((parseChainOptions st.opts).maxRetries + 1)).1, ?_⟩
        simp [Builder.chain, Builder.traceOf, runInitStep]
    | impl s =>
        cases htask : s.task with
        | error e => exact ⟨[], by simp [Builder.chain, Builder.traceOf, runChainedStep, htask]⟩
        | ok prev =>
            refine ⟨(attemptLoop
              (st.fn (viewOf (if 0 < s.index then histSet s.hist s.index prev else s.hist)))
              (parseChainOptions st.opts) s.index
              (if 0 < s.index then [Event.write s.index prev] else []) (s.index + 1) 0
              ((parseChainOptions st.opts).maxRetries + 1)).1, ?_⟩
            simp [Builder.chain, Builder.traceOf, runChainedStep, htask]
  · intro s st
    obtain ⟨rest, hrest⟩ := attemptLoop_first_exec (st.fn (viewOf s.hist))
      (parseChainOptions st.opts) (s.index + 1) [] (s.index + 1) 0
      (parseChainOptions st.opts).maxRetries
    exact ⟨rest, by simp [Builder.chain, Builder.traceOf, runInitStep, hrest]⟩
  · intro s st prev htask
    obtain ⟨rest, hrest⟩ := attemptLoop_first_exec
      (st.fn (viewOf (if 0 < s.index then histSet s.hist s.index prev else s.hist)))
      (parseChainOptions st.opts) s.index
      (if 0 < s.index then [Event.write s.index prev] else []) (s.index + 1) 0
      (parseChainOptions st.opts).maxRetries
    refine ⟨(attemptLoop
        (st.fn (viewOf (if 0 < s.index then histSet s.hist s.index prev else s.hist)))
        (parseChainOptions st.opts) s.index
        (if 0 < s.index then [Event.write s.index prev] else []) (s.index + 1) 0
        ((parseChainOptions st.opts).maxRetries + 1)).1, ?_, ?_⟩
    · simp [Builder.chain, Builder.traceOf, runChainedStep, htask]
    · rw [hrest]
      simp

/-- Witness for the amended C7: after `chain(() => 10)` (never invoked),
chaining one more step immediately executes that step's function. -/
theorem c7_chain_eager_invoke_projection_witness :
    Event.exec 2 0 ∈ Builder.traceOf (Builder.chain
      (.impl (runInitStep (chainsInit .undefinedV) okTen)) addFiveR2) := by
  obtain ⟨evs, htr, hmem⟩ := c7_chain_eager_invoke_projection.2.2.1
    (runInitStep (chainsInit .undefinedV) okTen) addFiveR2 (.vnum 10) rfl
  rw [htr]
  exact List.mem_append_right _ hmem

/-- C8 counterexample: in the one-step chain `chain(() => 10)`, the step
completes and `invoke()` resolves to its value, yet the trace contains
no history assignment and history position 1 is still absent - the
history did not grow when the (last) step produced its result, so
"entry `k` exists iff step `k` has completed" fails. -/
theorem c8_counterexample_last_entry_never_written :
    Builder.invoke (buildChain .undefinedV [okTen]) = .ok (.vnum 10) ∧
    Builder.traceOf (buildChain .undefinedV [okTen]) = [Event.exec 1 0] ∧
    Builder.histOf (buildChain .undefinedV [okTen]) 1 = none := by
  refine ⟨rfl, rfl, rfl⟩

/-- All history entries of a builder lie strictly below the write
position of the next chained step (at or below the index for the
initial builder, strictly below it once a step has been chained). -/
def HistBound : Builder → Prop
  | .init s => ∀ j, (s.hist j).isSome = true → j ≤ s.index
  | .impl s => ∀ j, (s.hist j).isSome = true → j < s.index

lemma histBound_chainsInit (d : Value) : HistBound (.init (chainsInit d)) := by
  intro j hj
  unfold chainsInit at hj
  by_cases hd : d ≠ .undefinedV
  · simp only [if_pos hd, histSet] at hj
    by_cases hj1 : j = 1
    · simp [chainsInit, if_pos hd, hj1]
    · simp [if_neg hj1] at hj
  · simp only [if_neg hd] at hj
    simp at hj

lemma histBound_chain {b : Builder} (hb : HistBound b) (st : StepDef) :
    HistBound (b.chain st) := by
  cases b with
  | init s =>
      intro j hj
      simp only [Builder.chain, runInitStep] at hj ⊢
      exact Nat.lt_succ_of_le (hb j hj)
  | impl s =>
      cases htask : s.task with
      | error e =>
          intro j hj
          simp only [Builder.chain, runChainedStep, htask] at hj ⊢
          exact Nat.lt_succ_of_lt (hb j hj)
      | ok prev =>
          intro j hj
          simp only [Builder.chain, runChainedStep, htask] at hj ⊢
          by_cases hpos : 0 < s.index
          · simp only [if_pos hpos, histSet] at hj
            by_cases hjk : j = s.index
            · omega
            · simp only [if_neg hjk] at hj
              exact Nat.lt_succ_of_lt (hb j hj)
          · simp only [if_neg hpos] at hj
            exact Nat.lt_succ_of_lt (hb j hj)

lemma histBound_foldl : ∀ (steps : List StepDef) (b : Builder), HistBound b →
    HistBound (steps.foldl Builder.chain b) := by
  intro steps
  induction steps with
  | nil => intro b hb; exact hb
  | cons st rest ih => intro b hb; exact ih _ (histBound_chain hb st)

lemma attemptLoop_write_mem {fn : Nat → AttemptSpec} {p : ParsedOptions} {tmoStep : Nat}
    {we : List Event} {pos : Nat} :
    ∀ fuel a pos2 v, Event.write pos2 v ∈ (attemptLoop fn p tmoStep we pos a fuel).1 →
      Event.write pos2 v ∈ we := by
  intro fuel
  induction fuel with
  | zero => intro a pos2 v h; simp [attemptLoop] at h
  | succ fuel ih =>
      intro a pos2 v h
      cases hr : raceOutcome p.timeout tmoStep (fn a) with
      | ok w =>
          rw [attemptLoop_succ_ok hr] at h
          rw [List.mem_append] at h
          rcases h with h | h
          · exact h
          · simp at h
      | error t =>
          cases hc : (decide (a < p.maxRetries) && shouldRetry (normalizeError t) p.retryWhen) with
          | false =>
              rw [attemptLoop_succ_stop hr hc] at h
              rw [List.mem_append] at h
              rcases h with h | h
              · exact h
              · simp at h
          | true =>
              rw [attemptLoop_succ_retry hr hc] at h
              rcases List.mem_append.mp h with h | h
              · rcases List.mem_append.mp h with h | h
                · rcases List.mem_append.mp h with h | h
                  · exact h
                  · simp at h
                · by_cases hd : p.retryDelay > 0
                  · simp [hd] at h
                  · simp [hd] at h
              · exact ih (a + 1) pos2 v h

lemma foldl_chain_impl : ∀ (steps : List StepDef) (s : ChainState),
    ∃ s2, steps.foldl Builder.chain (.impl s) = .impl s2 := by
  intro steps
  induction steps with
  | nil => intro s; exact ⟨s, rfl⟩
  | cons st rest ih =>
      intro s
      simp only [List.foldl_cons]
      exact ih (runChainedStep s st)

/-- C8 (amended): the history entry for step `k` is created when step
`k + 1` begins - each loop iteration of the successor re-assigns the
same previous result at position equal to the builder's current index.
Entries already present are never changed or deleted; chaining onto the
initial builder writes nothing; indices (and so first-write positions)
grow by exactly one per chained step, in strictly increasing order; and
the final chained step's own position is never written, so the last
step's result is returned by `invoke()` but never stored in history. -/
theorem c8_history_write_discipline :
    (∀ (b : Builder) (st : StepDef) (j : Nat) (v : Value), HistBound b →
        Builder.histOf b j = some v → Builder.histOf (b.chain st) j = some v) ∧
    (∀ (seed : Value) (steps : List StepDef), HistBound (buildChain seed steps)) ∧
    (∀ (s : ChainState) (st : StepDef) (prev : Value) (pos : Nat) (v : Value),
        s.task = .ok prev →
        Event.write pos v ∈ Builder.traceOf (Builder.chain (.impl s) st) →
        Event.write pos v ∈ s.trace ∨ (pos = s.index ∧ v = prev)) ∧
    (∀ (s : InitState) (st : StepDef) (pos : Nat) (v : Value),
        Event.write pos v ∉ Builder.traceOf (Builder.chain (.init s) st)) ∧
    (∀ (b : Builder) (st : StepDef), Builder.indexOf (b.chain st) = Builder.indexOf b + 1) ∧
    (∀ (seed : Value) (steps : List StepDef), steps ≠ [] →
        Builder.histOf (buildChain seed steps) (Builder.indexOf (buildChain seed steps)) = none) := by
  refine ⟨?_, ?_, ?_, ?_, ?_, ?_⟩
  · intro b st j v hb hj
    cases b with
    | init s => simpa [Builder.chain, Builder.histOf, runInitStep] using hj
    | impl s =>
        cases htask : s.task with
        | error e => simpa [Builder.chain, Builder.histOf, runChainedStep, htask] using hj
        | ok prev =>
            simp only [Builder.chain, Builder.histOf, runChainedStep, htask]
            by_cases hpos : 0 < s.index
            · simp only [if_pos hpos, histSet]
              have hjlt : j < s.index := hb j (by simp [Builder.histOf] at hj ⊢; simp [hj])
              rw [if_neg (by omega)]
              exact hj
            · simpa [if_neg hpos] using hj
  · intro seed steps
    exact histBound_foldl steps _ (histBound_chainsInit seed)
  · intro s st prev pos v htask hmem
    simp only [Builder.chain, Builder.traceOf, runChainedStep, htask] at hmem
    rw [List.mem_append] at hmem
    rcases hmem with h | h
    · exact Or.inl h
    · have := attemptLoop_write_mem _ _ _ _ h
      by_cases hpos : 0 < s.index
      · simp only [if_pos hpos, List.mem_singleton] at this
        rcases this with ⟨rfl, rfl⟩
        exact Or.inr ⟨rfl, rfl⟩
      · simp only [if_neg hpos] at this
        exact absurd this (List.not_mem_nil _)
  · intro s st pos v hmem
    simp only [Builder.chain, Builder.traceOf, runInitStep] at hmem
    have := attemptLoop_write_mem _ _ _ _ hmem
    exact absurd this (List.not_mem_nil _)
  · intro b st
    cases b with
    | init s => rfl
    | impl s =>
        cases htask : s.task with
        | error e => simp [Builder.chain, Builder.indexOf, runChainedStep, htask]
        | ok prev => simp [Builder.chain, Builder.indexOf, runChainedStep, htask]
  · intro seed steps hne
    cases steps with
    | nil => exact absurd rfl hne
    | cons st rest =>
        obtain ⟨s2, hs2⟩ := foldl_chain_impl rest
          (match Builder.init (chainsInit seed) with
            | .init s => runInitStep s st
            | .impl s => runChainedStep s st)
        have hb : HistBound (buildChain seed (st :: rest)) :=
          histBound_foldl _ _ (histBound_chainsInit seed)
        have hbc : buildChain seed (st :: rest) = .impl s2 := by
          simpa [buildChain, List.foldl_cons, Builder.chain] using hs2
        rw [hbc] at hb ⊢
        simp only [Builder.histOf, Builder.indexOf]
        rcases ho : s2.hist s2.index with _ | w
        · rfl
        · have := hb s2.index (by simp [ho])
          omega

/-- Witness for the amended C8: the seed entry of `new Chains(7)`
survives chaining a step, and the one-step chain's final position holds
no entry. -/
theorem c8_history_write_discipline_witness :
    Builder.histOf (Builder.chain (.init (chainsInit (.vnum 7))) okTen) 1 = some (.vnum 7) ∧
    Builder.histOf (buildChain .undefinedV [okTen]) (Builder.indexOf (buildChain .undefinedV [okTen])) = none := by
  refine ⟨?_, ?_⟩
  · exact c8_history_write_discipline.1 (.init (chainsInit (.vnum 7))) okTen 1 (.vnum 7)
      (histBound_chainsInit (.vnum 7)) rfl
  · exact c8_history_write_discipline.2.2.2.2.2 .undefinedV [okTen] (by simp)

section TasksLemmas

lemma runTask_run (ts : List TaskFn) (f idx : Nat) (param : Value) (hlt : idx < ts.length) :
    runTask ts (f + 1) idx param false =
      (match (runActs ts f idx ((ts.getD idx (fun _ => [])) param) false false).err with
       | some e =>
           { stop := true,
             evs := TEvent.run idx param ::
               (runActs ts f idx ((ts.getD idx (fun _ => [])) param) false false).evs,
             err := some e }
       | none =>
           { stop := if (runActs ts f idx ((ts.getD idx (fun _ => [])) param) false false).nextCalled
               then (runActs ts f idx ((ts.getD idx (fun _ => [])) param) false false).stop else true,
             evs := TEvent.run idx param ::
               (runActs ts f idx ((ts.getD idx (fun _ => [])) param) false false).evs,
             err := none }) := by
  simp only [runTask]
  rw [if_neg (by simp; omega)]

lemma runTask_evs_cons (ts : List TaskFn) (f idx : Nat) (param : Value)
    (hlt : idx < ts.length) :
    ∃ tail, (runTask ts (f + 1) idx param false).evs = TEvent.run idx param :: tail := by
  rw [runTask_run ts f idx param hlt]
  cases (runActs ts f idx ((ts.getD idx (fun _ => [])) param) false false).err with
  | some e => exact ⟨_, rfl⟩
  | none => exact ⟨_, rfl⟩

lemma tasks_next_param (ts : List TaskFn) (f idx : Nat) (param v : Value)
    (hact : ts.getD idx (fun _ => []) param = [.callNext v])
    (hlt : idx + 1 < ts.length) :
    ∃ evs2, (runTask ts (f + 1 + 1) idx param false).evs =
      TEvent.run idx param :: TEvent.run (idx + 1) v :: evs2 := by
  obtain ⟨tail, htail⟩ := runTask_evs_cons ts f (idx + 1) v hlt
  rw [runTask_run ts (f + 1) idx param (by omega), hact]
  simp only [runActs]
  cases herr : (runTask ts (f + 1) (idx + 1) v false).err with
  | some e =>
      simp only [herr]
      exact ⟨tail, by rw [htail]⟩
  | none =>
      simp only [herr, runActs]
      exact ⟨tail ++ [], by rw [htail]; rfl⟩

lemma tasks_no_signal_halts (ts : List TaskFn) (f idx : Nat) (param : Value)
    (hact : ts.getD idx (fun _ => []) param = [])
    (hlt : idx < ts.length) :
    runTask ts (f + 1) idx param false =
      { stop := true, evs := [TEvent.run idx param], err := none } := by
  rw [runTask_run ts f idx param hlt, hact]
  simp [runActs]

lemma tasks_throw_aborts (ts : List TaskFn) (f idx : Nat) (param v : Value)
    (hact : ts.getD idx (fun _ => []) param = [.throwV v])
    (hlt : idx < ts.length) :
    runTask ts (f + 1) idx param false =
      { stop := true, evs := [TEvent.run idx param], err := some v } := by
  rw [runTask_run ts f idx param hlt, hact]
  simp [runActs]

end TasksLemmas

/-- C9: in the Tasks runner, (i) a task that calls its continuation with
no explicit value (i.e. with `undefined`) makes the next task run with
parameter `undefined`; (ii) a task that returns without calling the
continuation or `finish` halts the run silently - only it ran, the stop
flag is set, no error is raised - including at `invoke()` level with
arbitrary tasks behind it; (iii) a task that throws aborts the whole run
immediately: the error propagates out (here through an awaiting
predecessor too) and no further task runs. -/
theorem c9_tasks_runner_semantics :
    (∀ (ts : List TaskFn) (f idx : Nat) (param : Value),
        ts.getD idx (fun _ => []) param = [.callNext .undefinedV] → idx + 1 < ts.length →
        ∃ evs2, (runTask ts (f + 1 + 1) idx param false).evs =
          TEvent.run idx param :: TEvent.run (idx + 1) .undefinedV :: evs2) ∧
    (∀ (ts : List TaskFn) (f idx : Nat) (param : Value),
        ts.getD idx (fun _ => []) param = [] → idx < ts.length →
        runTask ts (f + 1) idx param false =
          { stop := true, evs := [TEvent.run idx param], err := none }) ∧
    (∀ (rest : List TaskFn),
        invokeTasks ((fun _ => ([] : List TaskAct)) :: rest) =
          { stop := true, evs := [TEvent.run 0 .undefinedV], err := none }) ∧
    (∀ (ts : List TaskFn) (f idx : Nat) (param v : Value),
        ts.getD idx (fun _ => []) param = [.throwV v] → idx < ts.length →
        runTask ts (f + 1) idx param false =
          { stop := true, evs := [TEvent.run idx param], err := some v }) ∧
    (∀ (u v : Value) (rest : List TaskFn),
        invokeTasks ((fun _ => [TaskAct.callNext u]) ::
            (fun _ => [TaskAct.throwV v]) :: rest) =
          { stop := true, evs := [TEvent.run 0 .undefinedV, TEvent.run 1 u], err := some v }) := by
  refine ⟨fun ts f idx param => tasks_next_param ts f idx param .undefinedV,
    tasks_no_signal_halts, ?_, tasks_throw_aborts, ?_⟩
  · intro rest
    have hlen : ((fun _ => ([] : List TaskAct)) :: rest : List TaskFn).length + 1 =
        (rest.length + 1) + 1 := by simp
    rw [invokeTasks, hlen]
    exact tasks_no_signal_halts _ (rest.length + 1) 0 .undefinedV rfl (by simp)
  · intro u v rest
    have hlen : ((fun _ => [TaskAct.callNext u]) ::
        (fun _ => [TaskAct.throwV v]) :: rest : List TaskFn).length + 1 =
        (rest.length + 2) + 1 := by simp
    rw [invokeTasks, hlen]
    have hthrow := tasks_throw_aborts
      ((fun _ => [TaskAct.callNext u]) :: (fun _ => [TaskAct.throwV v]) :: rest)
      (rest.length + 1) 1 u v rfl (by simp)
    rw [runTask_run _ (rest.length + 2) 0 .undefinedV (by simp)]
    simp only [List.getD_cons_zero]
    simp only [runActs]
    rw [show rest.length + 2 = rest.length + 1 + 1 from rfl, hthrow]

/-- Witness for C9: `[t1 calls next(), t2 does nothing]` - the second
task runs with `undefined` as its parameter. -/
theorem c9_tasks_runner_semantics_witness :
    (runTask [fun _ => [TaskAct.callNext .undefinedV], fun _ => []] (0 + 1 + 1) 0
        .undefinedV false).evs.getD 1 (TEvent.run 0 .undefinedV) = TEvent.run 1 .undefinedV := by
  obtain ⟨evs2, hevs⟩ := c9_tasks_runner_semantics.1
    [fun _ => [TaskAct.callNext .undefinedV], fun _ => []] 0 0 .undefinedV rfl (by simp)
  rw [hevs]
  rfl

/-- A step function that always succeeds: for every results view it
might be handed, its first attempt completes in time (wins any timeout
race) with a value. -/
def StepSucceeds (st : StepDef) : Prop :=
  ∀ view : Nat → Value, ∃ v,
    raceOutcome (parseChainOptions st.opts).timeout 0 (st.fn view 0) = .ok v

/-- The value a succeeding step resolves with for public consumption:
the first attempt's value, wrapped as `{data}` when the step is
capture-mode. -/
def stepValue (st : StepDef) (view : Nat → Value) : Value :=
  match raceOutcome (parseChainOptions st.opts).timeout 0 (st.fn view 0) with
  | .ok v => if (parseChainOptions st.opts).withoutThrow then .wrapData v else v
  | .error _ => .undefinedV

/-- Placeholder step used only as a `getD` default. -/
def defaultStep : StepDef := { fn := fun _ _ => { slow := false, outcome := .ok .undefinedV } }

/-- Resolved values of an all-succeeding run of `steps`, starting from
history `h`, write index `i` and pending previous result `prev`. -/
def chainValsFrom (h : Hist) (i : Nat) (prev : Value) : List StepDef → List Value
  | [] => []
  | st :: rest =>
      stepValue st (viewOf (histSet h i prev)) ::
        chainValsFrom (histSet h i prev) (i + 1)
          (stepValue st (viewOf (histSet h i prev))) rest

/-- Results views handed to the successive steps of an all-succeeding
run. -/
def viewsFrom (h : Hist) (i : Nat) (prev : Value) : List StepDef → List (Nat → Value)
  | [] => []
  | st :: rest =>
      viewOf (histSet h i prev) ::
        viewsFrom (histSet h i prev) (i + 1)
          (stepValue st (viewOf (histSet h i prev))) rest

lemma runChainedStep_succeeds (s : ChainState) (st : StepDef) (prev : Value)
    (hst : StepSucceeds st) (htask : s.task = .ok prev) (hidx : 0 < s.index) :
    (runChainedStep s st).task = .ok (stepValue st (viewOf (histSet s.hist s.index prev))) ∧
    (runChainedStep s st).views = s.views ++ [viewOf (histSet s.hist s.index prev)] ∧
    (runChainedStep s st).index = s.index + 1 ∧
    (runChainedStep s st).hist = histSet s.hist s.index prev := by
  have hstep := runChainedStep_ok s st prev htask hidx
  obtain ⟨v, hv⟩ := hst (viewOf (histSet s.hist s.index prev))
  have hv2 := raceOutcome_ok_any s.index hv
  rw [hstep]
  refine ⟨?_, rfl, rfl, rfl⟩
  show (attemptLoop _ _ _ _ _ 0 ((parseChainOptions st.opts).maxRetries + 1)).2 = _
  rw [attemptLoop_succ_ok hv2]
  by_cases hw : (parseChainOptions st.opts).withoutThrow = true <;>
    simp [wrapResult, stepValue, hv, hw]

lemma runInitStep_succeeds (s : InitState) (st : StepDef) (hst : StepSucceeds st) :
    (runInitStep s st).task = .ok (stepValue st (viewOf s.hist)) ∧
    (runInitStep s st).views = [viewOf s.hist] ∧
    (runInitStep s st).index = s.index + 1 ∧
    (runInitStep s st).hist = s.hist := by
  obtain ⟨v, hv⟩ := hst (viewOf s.hist)
  have hv2 := raceOutcome_ok_any (s.index + 1) hv
  refine ⟨?_, rfl, rfl, rfl⟩
  show (attemptLoop _ _ _ _ _ 0 ((parseChainOptions st.opts).maxRetries + 1)).2 = _
  rw [attemptLoop_succ_ok hv2]
  by_cases hw : (parseChainOptions st.opts).withoutThrow = true <;>
    simp [wrapResult, stepValue, hv, hw]

lemma foldl_all_ok : ∀ (steps : List StepDef) (s : ChainState) (prev : Value),
    (∀ st ∈ steps, StepSucceeds st) → s.task = .ok prev → 0 < s.index →
    (List.foldl runChainedStep s steps).task =
      .ok ((chainValsFrom s.hist s.index prev steps).getLastD prev) ∧
    (List.foldl runChainedStep s steps).views =
      s.views ++ viewsFrom s.hist s.index prev steps ∧
    (List.foldl runChainedStep s steps).index = s.index + steps.length := by
  intro steps
  induction steps with
  | nil =>
      intro s prev hall htask hidx
      exact ⟨htask, by simp [viewsFrom], by simp⟩
  | cons st rest ih =>
      intro s prev hall htask hidx
      obtain ⟨ht1, hv1, hi1, hh1⟩ :=
        runChainedStep_succeeds s st prev (hall st (by simp)) htask hidx
      obtain ⟨ht2, hv2, hi2⟩ := ih (runChainedStep s st)
        (stepValue st (viewOf (histSet s.hist s.index prev)))
        (fun st2 hst2 => hall st2 (by simp [hst2])) ht1 (by omega)
      rw [List.foldl_cons]
      refine ⟨?_, ?_, ?_⟩
      · rw [ht2, hh1, hi1]
        simp only [chainValsFrom, List.getLastD_cons]
      · rw [hv2, hv1, hh1, hi1]
        simp [viewsFrom, List.append_assoc]
      · rw [hi2, hi1]
        simp only [List.length_cons]
        omega

lemma foldl_chain_impl_eq : ∀ (steps : List StepDef) (s : ChainState),
    steps.foldl Builder.chain (.impl s) = .impl (steps.foldl runChainedStep s) := by
  intro steps
  induction steps with
  | nil => intro s; rfl
  | cons st rest ih => intro s; simp only [List.foldl_cons]; exact ih (runChainedStep s st)

lemma chainValsFrom_length :
    ∀ (steps : List StepDef) (h : Hist) (i : Nat) (prev : Value),
      (chainValsFrom h i prev steps).length = steps.length := by
  intro steps
  induction steps with
  | nil => intros; rfl
  | cons st rest ih => intro h i prev; simp [chainValsFrom, ih]

lemma viewsFrom_length :
    ∀ (steps : List StepDef) (h : Hist) (i : Nat) (prev : Value),
      (viewsFrom h i prev steps).length = steps.length := by
  intro steps
  induction steps with
  | nil => intros; rfl
  | cons st rest ih => intro h i prev; simp [viewsFrom, ih]

lemma viewOf_histSet (h : Hist) (i : Nat) (v : Value) (j : Nat) :
    viewOf (histSet h i v) j = if j = i then v else viewOf h j := by
  by_cases hj : j = i
  · simp [viewOf, histSet, hj]
  · simp [viewOf, histSet, hj]

lemma viewsFrom_getD : ∀ (steps : List StepDef) (h : Hist) (i : Nat) (prev : Value) (k : Nat),
    k < steps.length → ∀ j,
      ((viewsFrom h i prev steps).getD k (fun _ => Value.undefinedV)) j =
        if i ≤ j ∧ j ≤ i + k then
          (prev :: chainValsFrom h i prev steps).getD (j - i) .undefinedV
        else viewOf h j := by
  intro steps
  induction steps with
  | nil => intro h i prev k hk; simp at hk
  | cons st rest ih =>
      intro h i prev k hk j
      cases k with
      | zero =>
          simp only [viewsFrom, List.getD_cons_zero]
          rw [viewOf_histSet]
          by_cases hj : j = i
          · subst hj
            rw [if_pos rfl, if_pos (show j ≤ j ∧ j ≤ j + 0 from ⟨le_refl _, by omega⟩)]
            simp
          · rw [if_neg hj, if_neg (show ¬(i ≤ j ∧ j ≤ i + 0) from by omega)]
      | succ k =>
          simp only [viewsFrom, List.getD_cons_succ]
          rw [ih (histSet h i prev) (i + 1)
            (stepValue st (viewOf (histSet h i prev))) k (by simpa using hk) j]
          by_cases h1 : i + 1 ≤ j ∧ j ≤ i + 1 + k
          · rw [if_pos h1, if_pos (by omega)]
            have hji : j - i = (j - (i + 1)) + 1 := by omega
            rw [hji]
            simp only [chainValsFrom, List.getD_cons_succ]
          · rw [if_neg h1, viewOf_histSet]
            by_cases hj : j = i
            · subst hj
              rw [if_pos rfl,
                if_pos (show j ≤ j ∧ j ≤ j + (k + 1) from ⟨le_refl _, by omega⟩)]
              simp
            · rw [if_neg hj, if_neg (show ¬(i ≤ j ∧ j ≤ i + (k + 1)) from by omega)]

lemma chainValsFrom_getD :
    ∀ (steps : List StepDef) (h : Hist) (i : Nat) (prev : Value) (k : Nat),
      k < steps.length →
      (chainValsFrom h i prev steps).getD k .undefinedV =
        stepValue (steps.getD k defaultStep)
          ((viewsFrom h i prev steps).getD k (fun _ => Value.undefinedV)) := by
  intro steps
  induction steps with
  | nil => intro h i prev k hk; simp at hk
  | cons st rest ih =>
      intro h i prev k hk
      cases k with
      | zero => simp only [chainValsFrom, viewsFrom, List.getD_cons_zero]
      | succ k =>
          simp only [chainValsFrom, viewsFrom, List.getD_cons_succ]
          exact ih _ _ _ k (by simpa using hk)

lemma chainsInit_hist (seed : Value) (j : Nat) :
    (chainsInit seed).hist j = if seed ≠ .undefinedV ∧ j = 1 then some seed else none := by
  unfold chainsInit
  by_cases hd : seed ≠ .undefinedV
  · simp only [if_pos hd, histSet]
    by_cases hj : j = 1
    · simp [hj, hd]
    · simp [hj]
  · simp only [if_neg hd]
    simp only [not_not] at hd
    simp [hd]

lemma chainsInit_index (seed : Value) :
    (chainsInit seed).index = if seed ≠ .undefinedV then 1 else 0 := by
  unfold chainsInit
  by_cases hd : seed ≠ .undefinedV
  · simp [hd]
  · simp [hd]

lemma chainsInit_viewOf (seed : Value) (j : Nat) :
    viewOf (chainsInit seed).hist j =
      if seed ≠ .undefinedV ∧ j = 1 then seed else .undefinedV := by
  unfold viewOf
  rw [chainsInit_hist]
  by_cases hc : seed ≠ .undefinedV ∧ j = 1
  · simp [hc]
  · simp [hc]

/-- C1: in a chain whose step functions all succeed, `invoke()` resolves
to the value produced by the last step; the results view handed to the
step at (0-based) position `k` exposes exactly the resolved values of
the earlier steps - the seed (when one was supplied) at key 1 and the
value of earlier step `m` at key `base + m + 1`, where `base` is 1 with
a seed and 0 without - and yields `undefined` for every other key; each
step's resolved value is its step function's value on exactly that view
(wrapped when capture-mode).  In particular the concrete chain
`chain(() => 10).chain(r => r[1]*2).chain(r => r[2]+5).invoke()`
resolves to 25. -/
theorem c1_no_failure_resolves_last_step (seed : Value) (st0 : StepDef)
    (rest : List StepDef) (h0 : StepSucceeds st0)
    (hrest : ∀ st ∈ rest, StepSucceeds st) :
    (∃ vals : List Value,
      vals.length = rest.length + 1 ∧
      invokeChain seed (st0 :: rest) = .ok (vals.getLastD .undefinedV) ∧
      (Builder.viewsOf (buildChain seed (st0 :: rest))).length = rest.length + 1 ∧
      (∀ k, k < rest.length + 1 →
        vals.getD k .undefinedV =
          stepValue ((st0 :: rest).getD k defaultStep)
            ((Builder.viewsOf (buildChain seed (st0 :: rest))).getD k (fun _ => Value.undefinedV))) ∧
      (∀ k, k < rest.length + 1 → ∀ j : Nat,
        (Builder.viewsOf (buildChain seed (st0 :: rest))).getD k (fun _ => Value.undefinedV) j =
          if 1 ≤ j ∧ j ≤ (chainsInit seed).index + k then
            (if j ≤ (chainsInit seed).index then seed
             else vals.getD (j - (chainsInit seed).index - 1) .undefinedV)
          else .undefinedV)) ∧
    invokeChain .undefinedV [okTen, doubleR1, addFiveR2] = .ok (.vnum 25) := by
  refine ⟨?_, rfl⟩
  obtain ⟨ht1, hv1, hi1, hh1⟩ := runInitStep_succeeds (chainsInit seed) st0 h0
  obtain ⟨ht2, hv2, hi2⟩ := foldl_all_ok rest (runInitStep (chainsInit seed) st0)
    (stepValue st0 (viewOf (chainsInit seed).hist)) hrest ht1 (by omega)
  rw [hh1, hi1] at ht2 hv2
  have hbc : buildChain seed (st0 :: rest) =
      .impl (List.foldl runChainedStep (runInitStep (chainsInit seed) st0) rest) := by
    rw [buildChain, List.foldl_cons]
    exact foldl_chain_impl_eq rest (runInitStep (chainsInit seed) st0)
  have hviews : Builder.viewsOf (buildChain seed (st0 :: rest)) =
      viewOf (chainsInit seed).hist ::
        viewsFrom (chainsInit seed).hist ((chainsInit seed).index + 1)
          (stepValue st0 (viewOf (chainsInit seed).hist)) rest := by
    rw [hbc]
    show (List.foldl runChainedStep (runInitStep (chainsInit seed) st0) rest).views = _
    rw [hv2, hv1]
    rfl
  refine ⟨stepValue st0 (viewOf (chainsInit seed).hist) ::
      chainValsFrom (chainsInit seed).hist ((chainsInit seed).index + 1)
        (stepValue st0 (viewOf (chainsInit seed).hist)) rest, ?_, ?_, ?_, ?_, ?_⟩
  · simp [chainValsFrom_length]
  · show (buildChain seed (st0 :: rest)).invoke = _
    rw [hbc]
    show (List.foldl runChainedStep (runInitStep (chainsInit seed) st0) rest).task = _
    rw [ht2, List.getLastD_cons]
  · rw [hviews]
    simp [viewsFrom_length]
  · intro k hk
    rw [hviews]
    cases k with
    | zero => rfl
    | succ k =>
        simp only [List.getD_cons_succ]
        exact chainValsFrom_getD rest _ _ _ k (by omega)
  · intro k hk j
    rw [hviews]
    cases k with
    | zero =>
        simp only [List.getD_cons_zero]
        rw [chainsInit_viewOf]
        by_cases hseed : seed = .undefinedV
        · have hidx0 : (chainsInit seed).index = 0 := by
            rw [chainsInit_index]
            simp [hseed]
          rw [hidx0, if_neg (show ¬(1 ≤ j ∧ j ≤ 0 + 0) from by omega),
            if_neg (show ¬(seed ≠ .undefinedV ∧ j = 1) from by simp [hseed])]
        · have hidx1 : (chainsInit seed).index = 1 := by
            rw [chainsInit_index]
            simp [hseed]
          rw [hidx1]
          by_cases hj : j = 1
          · rw [if_pos ⟨hseed, hj⟩, if_pos (show 1 ≤ j ∧ j ≤ 1 + 0 from by omega),
              if_pos (show j ≤ 1 from by omega)]
          · rw [if_neg (show ¬(seed ≠ .undefinedV ∧ j = 1) from by simp [hj]),
              if_neg (show ¬(1 ≤ j ∧ j ≤ 1 + 0) from by omega)]
    | succ k =>
        simp only [List.getD_cons_succ]
        rw [viewsFrom_getD rest _ _ _ k (by omega) j]
        by_cases hA : (chainsInit seed).index + 1 ≤ j ∧ j ≤ (chainsInit seed).index + 1 + k
        · rw [if_pos hA, if_pos (show 1 ≤ j ∧ j ≤ (chainsInit seed).index + (k + 1) from
            by omega), if_neg (show ¬(j ≤ (chainsInit seed).index) from by omega)]
          have hsub : j - (chainsInit seed).index - 1 = j - ((chainsInit seed).index + 1) := by
            omega
          rw [hsub]
        · rw [if_neg hA, chainsInit_viewOf]
          by_cases hseed : seed = .undefinedV
          · have hidx0 : (chainsInit seed).index = 0 := by
              rw [chainsInit_index]
              simp [hseed]
            rw [hidx0] at hA ⊢
            rw [if_neg (show ¬(seed ≠ .undefinedV ∧ j = 1) from by simp [hseed]),
              if_neg (show ¬(1 ≤ j ∧ j ≤ 0 + (k + 1)) from by omega)]
          · have hidx1 : (chainsInit seed).index = 1 := by
              rw [chainsInit_index]
              simp [hseed]
            rw [hidx1] at hA ⊢
            by_cases hj : j = 1
            · rw [if_pos ⟨hseed, hj⟩, if_pos (show 1 ≤ j ∧ j ≤ 1 + (k + 1) from by omega),
                if_pos (show j ≤ 1 from by omega)]
            · rw [if_neg (show ¬(seed ≠ .undefinedV ∧ j = 1) from by simp [hj]),
                if_neg (show ¬(1 ≤ j ∧ j ≤ 1 + (k + 1)) from by omega)]

/-- Witness for C1 at the spec's concrete chain `chain(() => 10)
.chain(r => r[1]*2).chain(r => r[2]+5).invoke()`: it resolves to 25. -/
theorem c1_no_failure_resolves_last_step_witness :
    invokeChain .undefinedV [okTen, doubleR1, addFiveR2] = .ok (.vnum 25) :=
  (c1_no_failure_resolves_last_step .undefinedV okTen [doubleR1, addFiveR2]
    (fun _ => ⟨.vnum 10, rfl⟩)
    (by
      intro st hst
      simp only [List.mem_cons, List.not_mem_nil, or_false, List.mem_singleton] at hst
      rcases hst with rfl | rfl
      · exact fun view => ⟨_, rfl⟩
      · exact fun view => ⟨_, rfl⟩)).2

end ToolChain
